import Mathlib

set_option maxRecDepth 8000

/-!
Shallow embedding of the Gmail agent (`src/gmail_agent.py`): the part decoder
`_decode_part_data`, the MIME tree walker `extract_message_text`, and the
message summarizer `extract_essential_fields`, together with the Python
library routines they call (`base64.urlsafe_b64decode`, `bytes.decode`,
`quopri.decodestring`, `str.strip`, `str.join`, `int`), modelled over
`List Nat` byte strings and Lean `String`s.
-/

/-! ## Python string primitives -/

/-- The set of characters stripped by Python `str.strip()` (Unicode whitespace). -/
def pySpace (c : Char) : Bool :=
  let n := c.toNat
  (9 ≤ n && n ≤ 13) || (28 ≤ n && n ≤ 31) || n == 32 || n == 133 || n == 160 ||
    n == 5760 || (8192 ≤ n && n ≤ 8202) || n == 8232 || n == 8233 ||
    n == 8239 || n == 8287 || n == 12288

/-- Python `str.strip()`: remove leading and trailing whitespace. -/
def pyStrip (s : String) : String :=
  String.mk (((s.data.dropWhile pySpace).reverse.dropWhile pySpace).reverse)

/-- Python `sep.join(xs)`. -/
def pyJoin (sep : String) : List String → String
  | [] => ""
  | [x] => x
  | x :: y :: xs => x ++ sep ++ pyJoin sep (y :: xs)

/-- `charsBeginWith p l` tests whether `l` begins with `p`. -/
def charsBeginWith : List Char → List Char → Bool
  | [], _ => true
  | _ :: _, [] => false
  | p :: ps, c :: cs => p == c && charsBeginWith ps cs

/-- Python `s.startswith(pre)`. -/
def startsWithStr (s pre : String) : Bool := charsBeginWith pre.data s.data

/-! ## base64url decoding (`base64.urlsafe_b64decode`)

Python's `urlsafe_b64decode` translates `-`/`_` to `+`/`/` and calls
`b64decode` with `validate=False`, i.e. CPython's non-strict
`binascii.a2b_base64`: characters outside the alphabet are discarded, a
quad is flushed every four alphabet characters, padding `=` after two or
three quad characters ends the input, and a trailing partial quad is an
error (`none`). -/

/-- Value of a base64 alphabet character after the urlsafe translation
(`A`-`Z`, `a`-`z`, `0`-`9`, and both `+`/`-` for 62 and `/`/`_` for 63). -/
def b64Val (c : Char) : Option Nat :=
  let n := c.toNat
  if 65 ≤ n ∧ n ≤ 90 then some (n - 65)
  else if 97 ≤ n ∧ n ≤ 122 then some (n - 71)
  else if 48 ≤ n ∧ n ≤ 57 then some (n + 4)
  else if n = 43 ∨ n = 45 then some 62
  else if n = 47 ∨ n = 95 then some 63
  else none

/-- CPython `binascii.a2b_base64` (non-strict): state is the position in the
current quad, the pending bits, the count of pending pad characters, and the
reversed output. -/
def a2bBase64 : List Char → Nat → Nat → Nat → List Nat → Option (List Nat)
  | [], quadPos, _, _, out => if quadPos = 0 then some out.reverse else none
  | c :: cs, quadPos, leftchar, pads, out =>
    if c = '=' then
      if 2 ≤ quadPos then
        if 4 ≤ quadPos + (pads + 1) then some out.reverse
        else a2bBase64 cs quadPos leftchar (pads + 1) out
      else a2bBase64 cs quadPos leftchar pads out
    else
      match b64Val c with
      | none => a2bBase64 cs quadPos leftchar pads out
      | some v =>
        if quadPos = 0 then a2bBase64 cs 1 v 0 out
        else if quadPos = 1 then a2bBase64 cs 2 (v % 16) 0 ((leftchar * 4 + v / 16) :: out)
        else if quadPos = 2 then a2bBase64 cs 3 (v % 4) 0 ((leftchar * 16 + v / 4) :: out)
        else a2bBase64 cs 0 0 0 ((leftchar * 64 + v) :: out)

/-- `base64.urlsafe_b64decode` on a `str`, returning the decoded bytes or
`none` for an exception: CPython first converts the string with
`s.encode('ascii')`, raising `ValueError` on any non-ASCII character, and
only then runs `a2b_base64` (which discards invalid ASCII characters). -/
def pyB64Decode (s : String) : Option (List Nat) :=
  if s.data.all (fun c => decide (c.toNat < 128)) then a2bBase64 s.data 0 0 0 []
  else none

/-- The padding step of `_decode_part_data`:
`data_string + '=' * (-len(data_string) % 4)`. -/
def padB64 (s : String) : String :=
  s ++ String.mk (List.replicate ((4 - s.length % 4) % 4) '=')

/-! ## UTF-8 (`bytes.decode('utf-8')`, strict and `errors='replace'`) -/

/-- A UTF-8 continuation byte. -/
def isCont (b : Nat) : Bool := decide (128 ≤ b) && decide (b < 192)

/-- Scalar value of a two-byte UTF-8 sequence. -/
def utf8Val2 (b b2 : Nat) : Nat := (b - 192) * 64 + (b2 - 128)

/-- Scalar value of a three-byte UTF-8 sequence. -/
def utf8Val3 (b b2 b3 : Nat) : Nat := (b - 224) * 4096 + (b2 - 128) * 64 + (b3 - 128)

/-- Scalar value of a four-byte UTF-8 sequence. -/
def utf8Val4 (b b2 b3 b4 : Nat) : Nat :=
  (b - 240) * 262144 + (b2 - 128) * 4096 + (b3 - 128) * 64 + (b4 - 128)

/-- Strict UTF-8 decoding as a byte-at-a-time state machine: `k` pending
continuation bytes, `v` the scalar value accumulated so far, `m` the minimum
scalar value a sequence of this length may encode (rejecting overlong
encodings).  At the end of a sequence the value must be at least `m`, not a
surrogate, and at most `0x10FFFF`.  Leading bytes `0xC0`/`0xC1` (overlong
two-byte) and `0xF5`-`0xFF` are rejected outright, as are stray or missing
continuation bytes. -/
def u8Aux : List Nat → Nat → Nat → Nat → List Char → Option (List Char)
  | [], 0, _, _, acc => some acc.reverse
  | [], _ + 1, _, _, _ => none
  | b :: bs, 0, _, _, acc =>
    if b < 128 then u8Aux bs 0 0 0 (Char.ofNat b :: acc)
    else if b < 194 then none
    else if b < 224 then u8Aux bs 1 (b - 192) 128 acc
    else if b < 240 then u8Aux bs 2 (b - 224) 2048 acc
    else if b < 245 then u8Aux bs 3 (b - 240) 65536 acc
    else none
  | b :: bs, k + 1, v, m, acc =>
    if isCont b then
      if k = 0 then
        if decide (m ≤ v * 64 + (b - 128)) &&
            (decide (v * 64 + (b - 128) < 55296) || decide (57344 ≤ v * 64 + (b - 128))) &&
            decide (v * 64 + (b - 128) < 1114112) then
          u8Aux bs 0 0 0 (Char.ofNat (v * 64 + (b - 128)) :: acc)
        else none
      else u8Aux bs k (v * 64 + (b - 128)) m acc
    else none

/-- Strict UTF-8 decoding of a byte list, as Python `bytes.decode('utf-8')`:
rejects overlong encodings, surrogates, values above `0x10FFFF`, and
truncated or malformed sequences. -/
def utf8Decode (bs : List Nat) : Option (List Char) := u8Aux bs 0 0 0 []

/-- The replacement character `U+FFFD`. -/
def replChar : Char := Char.ofNat 65533

/-- Constrained range for the second byte of a multi-byte sequence led by `b`
(CPython's "substitution of maximal subparts" uses these when deciding how
many bytes one replacement character swallows). -/
def secondByteOk (b b2 : Nat) : Bool :=
  if b = 224 then decide (160 ≤ b2) && decide (b2 < 192)
  else if b = 237 then decide (128 ≤ b2) && decide (b2 < 160)
  else if b = 240 then decide (144 ≤ b2) && decide (b2 < 192)
  else if b = 244 then decide (128 ≤ b2) && decide (b2 < 144)
  else isCont b2

/-- Python `bytes.decode('utf-8', errors='replace')`: like strict decoding
but each maximal invalid subpart becomes one `U+FFFD`. -/
def utf8DecodeReplace : List Nat → List Char
  | [] => []
  | b :: bs =>
    if b < 128 then Char.ofNat b :: utf8DecodeReplace bs
    else if b < 194 then replChar :: utf8DecodeReplace bs
    else if b < 224 then
      match bs with
      | b2 :: bs2 =>
        if isCont b2 then Char.ofNat (utf8Val2 b b2) :: utf8DecodeReplace bs2
        else replChar :: utf8DecodeReplace (b2 :: bs2)
      | [] => [replChar]
    else if b < 240 then
      match bs with
      | b2 :: bs2 =>
        if secondByteOk b b2 then
          match bs2 with
          | b3 :: bs3 =>
            if isCont b3 then
              Char.ofNat (utf8Val3 b b2 b3) :: utf8DecodeReplace bs3
            else replChar :: utf8DecodeReplace (b3 :: bs3)
          | [] => [replChar]
        else replChar :: utf8DecodeReplace (b2 :: bs2)
      | [] => [replChar]
    else if b < 245 then
      match bs with
      | b2 :: bs2 =>
        if secondByteOk b b2 then
          match bs2 with
          | b3 :: bs3 =>
            if isCont b3 then
              match bs3 with
              | b4 :: bs4 =>
                if isCont b4 then
                  Char.ofNat (utf8Val4 b b2 b3 b4) :: utf8DecodeReplace bs4
                else replChar :: utf8DecodeReplace (b4 :: bs4)
              | [] => [replChar]
            else replChar :: utf8DecodeReplace (b3 :: bs3)
          | [] => [replChar]
        else replChar :: utf8DecodeReplace (b2 :: bs2)
      | [] => [replChar]
    else replChar :: utf8DecodeReplace bs

/-! ## Quoted-printable (`quopri.decodestring`, i.e. `binascii.a2b_qp`) -/

/-- Hexadecimal digit bytes accepted by `a2b_qp` (`0-9`, `A-F`, `a-f`). -/
def isHexDig (b : Nat) : Bool :=
  (decide (48 ≤ b) && decide (b ≤ 57)) || (decide (65 ≤ b) && decide (b ≤ 70)) ||
    (decide (97 ≤ b) && decide (b ≤ 102))

/-- Value of a hexadecimal digit byte. -/
def hexVal (b : Nat) : Nat :=
  if b ≤ 57 then b - 48 else if b ≤ 70 then b - 55 else b - 87

/-- CPython `binascii.a2b_qp` (non-header mode). The flag records that we are
inside a soft line break `=\r...` skipping to the next `\n`. Never fails. -/
def a2bQpAux : Bool → List Nat → List Nat
  | _, [] => []
  | true, 10 :: rest => a2bQpAux false rest
  | true, _ :: rest => a2bQpAux true rest
  | false, [61] => []
  | false, 61 :: 10 :: rest2 => a2bQpAux false rest2
  | false, 61 :: 13 :: rest2 => a2bQpAux true rest2
  | false, 61 :: 61 :: rest2 => 61 :: a2bQpAux false rest2
  | false, 61 :: c :: c2 :: rest3 =>
    if isHexDig c && isHexDig c2 then (hexVal c * 16 + hexVal c2) :: a2bQpAux false rest3
    else 61 :: c :: a2bQpAux false (c2 :: rest3)
  | false, 61 :: c :: rest2 => 61 :: c :: a2bQpAux false rest2
  | false, b :: rest => b :: a2bQpAux false rest

/-- Python `quopri.decodestring` on bytes. -/
def a2bQp (l : List Nat) : List Nat := a2bQpAux false l

/-! ## The part decoder `_decode_part_data` -/

/-- `src/gmail_agent.py` `_decode_part_data`: padded base64url decoding, then
strict UTF-8; on `UnicodeDecodeError`, quoted-printable then UTF-8 with
replacement.  The argument is `Option String` because the Python function is
also invoked on `None` (`if not data_string` covers both `None` and `""`).
The final `except` tier (fall back to the original bytes with replacement)
is unreachable because `quopri.decodestring` and `errors='replace'` decoding
are total, and so it does not appear in the embedding. -/
def _decode_part_data : Option String → String
  | none => ""
  | some s =>
    if s = "" then ""
    else
      match pyB64Decode (padB64 s) with
      | none => ""
      | some bytes =>
        match utf8Decode bytes with
        | some cs => String.mk cs
        | none => String.mk (utf8DecodeReplace (a2bQp bytes))

/-! ## HTML text extraction -/

/-- Lower-case an ASCII letter. -/
def lowerChar (c : Char) : Char :=
  if 65 ≤ c.toNat ∧ c.toNat ≤ 90 then Char.ofNat (c.toNat + 32) else c

/-- The element name at the start of a tag body (leading `/` skipped by the
caller): the longest run of ASCII letters, lower-cased. -/
def tagNameOf : List Char → List Char
  | [] => []
  | c :: cs =>
    if (65 ≤ c.toNat ∧ c.toNat ≤ 90) ∨ (97 ≤ c.toNat ∧ c.toNat ≤ 122) then
      lowerChar c :: tagNameOf cs
    else []

/-- Does a tag body close the raw-text element `nm` (`</nm ...`)? -/
def closesElement (tag nm : List Char) : Bool :=
  match tag with
  | '/' :: rest => tagNameOf rest == nm
  | _ => false

mutual

/-- Text-node segments of an HTML document: `hText` is outside tags
accumulating the current segment (reversed), `hTag` is inside `<...>`
accumulating the tag body, and `hSkip`/`hSkipTag` discard the contents of a
`script`/`style` element until its closing tag. -/
def hText : List Char → List Char → List (List Char)
  | [], cur => [cur.reverse]
  | '<' :: rest, cur => cur.reverse :: hTag rest []
  | c :: rest, cur => hText rest (c :: cur)

/-- See `hText`. -/
def hTag : List Char → List Char → List (List Char)
  | [], _ => []
  | '>' :: rest, tag =>
    if tagNameOf tag.reverse == "script".data || tagNameOf tag.reverse == "style".data then
      hSkip rest (tagNameOf tag.reverse)
    else hText rest []
  | c :: rest, tag => hTag rest (c :: tag)

/-- See `hText`. -/
def hSkip : List Char → List Char → List (List Char)
  | [], _ => []
  | '<' :: rest, nm => hSkipTag rest [] nm
  | _ :: rest, nm => hSkip rest nm

/-- See `hText`. -/
def hSkipTag : List Char → List Char → List Char → List (List Char)
  | [], _, _ => []
  | '>' :: rest, tag, nm => if closesElement tag.reverse nm then hText rest [] else hSkip rest nm
  | c :: rest, tag, nm => hSkipTag rest (c :: tag) nm

end

/-- Modelled from the spec: the HTML Text Extractor of §4.2, realized in the
source by the external `bs4.BeautifulSoup` library
(`soup.get_text(separator="\n", strip=True)`), whose code is not part of this
repository.  Visible text nodes are extracted (scripts and styles contribute
nothing), each node is trimmed, empty nodes are dropped, the rest are joined
with newline separators and the whole is trimmed.  No claim depends on the
exact text produced for a particular HTML document. -/
def htmlToText (html : String) : String :=
  pyStrip (pyJoin "\n"
    (((hText html.data []).map (fun seg => pyStrip (String.mk seg))).filter (fun t => t ≠ "")))

/-! ## MIME parts and the tree walker `extract_message_text` -/

/-- One entry of a Gmail `headers` list: `h["name"]`, `h["value"]`. -/
structure Header where
  name : String
  value : String

/-- A Gmail MIME part.  `mimeType` models `part.get("mimeType", "")` (an
absent field is the empty string), `data` models
`part.get("body", {}).get("data")`, `headers` models
`part.get("headers", [])` and `parts` models `part.get("parts", [])`
(an absent list is empty). -/
inductive MimePart where
  | mk : String → Option String → List Header → List MimePart → MimePart

def MimePart.mimeType : MimePart → String
  | .mk mt _ _ _ => mt

def MimePart.data : MimePart → Option String
  | .mk _ d _ _ => d

def MimePart.headers : MimePart → List Header
  | .mk _ _ hs _ => hs

def MimePart.parts : MimePart → List MimePart
  | .mk _ _ _ ps => ps

/-- `message.get("payload", {})` when the payload is absent: every `get`
on the empty dict returns its default. -/
def emptyPart : MimePart := .mk "" none [] []

mutual

/-- Number of nodes of a MIME part (the termination measure for the walker).  -/
def partSize : MimePart → Nat
  | .mk _ _ _ parts => 1 + partsSize parts

/-- Total number of nodes of a list of MIME parts. -/
def partsSize : List MimePart → Nat
  | [] => 0
  | p :: ps => partSize p + partsSize ps

end

/-- The body of the `while parts_to_visit:` loop acting on the collected-text
accumulator: the `text/plain` and `text/html` branches of
`extract_message_text`.  Texts are appended in pop order. -/
def collectPart (p : MimePart) (acc : List String) : List String :=
  if p.mimeType = "text/plain" then
    match p.data with
    | some d =>
      if d ≠ "" then
        if _decode_part_data (some d) ≠ "" then acc ++ [_decode_part_data (some d)] else acc
      else acc
    | none => acc
  else if p.mimeType = "text/html" then
    match p.data with
    | some d =>
      if d ≠ "" then
        if _decode_part_data (some d) ≠ "" then
          if htmlToText (_decode_part_data (some d)) ≠ "" then
            acc ++ [htmlToText (_decode_part_data (some d))]
          else acc
        else acc
      else acc
    | none => acc
  else acc

/-- The stack update of one loop iteration: a `multipart/*` part pushes its
children in reverse order onto the Python list, so with the list head as the
top of the stack the new stack is `p.parts ++ rest`; any other part pushes
nothing. -/
def stepStack (p : MimePart) (rest : List MimePart) : List MimePart :=
  if startsWithStr p.mimeType "multipart/" then p.parts ++ rest else rest

/-- The `while parts_to_visit:` loop of `extract_message_text`, with the head
of the list as the top of the stack. -/
def extractLoop : List MimePart → List String → List String
  | [], acc => acc
  | p :: rest, acc => extractLoop (stepStack p rest) (collectPart p acc)
termination_by stack _ => partsSize stack
decreasing_by
  simp only [stepStack]
  have happ : ∀ l1 l2 : List MimePart, partsSize (l1 ++ l2) = partsSize l1 + partsSize l2 := by
    intro l1 l2
    induction l1 with
    | nil => simp [partsSize]
    | cons q qs ih => simp [partsSize, ih]; omega
  split
  · cases p with
    | mk mt d hs ps =>
      simp [partsSize, partSize, MimePart.parts, happ]
      try omega
  · cases p with
    | mk mt d hs ps =>
      simp [partsSize, partSize]
      try omega

/-- Fuel-indexed version of the walker loop (`none` = fuel exhausted);
used to state that the loop terminates within `partsSize` iterations. -/
def extractLoopFuel : Nat → List MimePart → List String → Option (List String)
  | _, [], acc => some acc
  | 0, _ :: _, _ => none
  | fuel + 1, p :: rest, acc => extractLoopFuel fuel (stepStack p rest) (collectPart p acc)

/-- `src/gmail_agent.py` `extract_message_text`:
`"\n".join(reversed(collected_texts)).strip()` after the walk. -/
def extract_message_text (payload : MimePart) : String :=
  pyStrip (pyJoin "\n" (extractLoop [payload] []).reverse)

/-! ## Python `int()` on strings -/

/-- The whitespace `int()` accepts around a numeric literal: the Unicode
white-space code points.  Unlike `str.strip()`, `int()` does not accept the
separator control characters `U+001C`-`U+001F` (CPython raises on
`int('\x1c5')` although `'\x1c5'.strip()` removes the `\x1c`). -/
def pyIntSpace (c : Char) : Bool :=
  let n := c.toNat
  (9 ≤ n && n ≤ 13) || n == 32 || n == 133 || n == 160 || n == 5760 ||
    (8192 ≤ n && n ≤ 8202) || n == 8232 || n == 8233 || n == 8239 || n == 8287 ||
    n == 12288

/-- First code point (the zero) of every run of ten Unicode decimal digits
(category `Nd`), from CPython's `unicodedata` tables: `int()` accepts any of
these digits, e.g. Arabic-Indic `int('١٢٣') = 123` and fullwidth
`int('１２３') = 123`. -/
def pyDigitZeros : List Nat :=
  [48, 1632, 1776, 1984, 2406, 2534, 2662, 2790, 2918, 3046, 3174, 3302, 3430,
   3558, 3664, 3792, 3872, 4160, 4240, 6112, 6160, 6470, 6608, 6784, 6800, 6992,
   7088, 7232, 7248, 42528, 43216, 43264, 43472, 43504, 43600, 44016, 65296,
   66720, 68912, 69734, 69872, 69942, 70096, 70384, 70736, 70864, 71248, 71360,
   71472, 71904, 72016, 72784, 73040, 73120, 92768, 92864, 93008, 120782,
   120792, 120802, 120812, 120822, 123200, 123632, 125264, 130032]

/-- Decimal value of a Unicode digit character accepted by `int()`, or `none`
when the character is not a decimal digit. -/
def pyDigitVal (c : Char) : Option Nat :=
  (pyDigitZeros.find? (fun z => decide (z ≤ c.toNat) && decide (c.toNat ≤ z + 9))).map
    (fun z => c.toNat - z)

/-- Digits of a base-10 literal after the first digit: single underscores are
allowed between digits (`int('1_0')` is valid, `'1__0'` and `'1_'` are not). -/
def digitsCore : List Char → Nat → Option Nat
  | [], acc => some acc
  | '_' :: c :: cs, acc =>
    match pyDigitVal c with
    | some d => digitsCore cs (acc * 10 + d)
    | none => none
  | ['_'], _ => none
  | c :: cs, acc =>
    match pyDigitVal c with
    | some d => digitsCore cs (acc * 10 + d)
    | none => none

/-- Python `int(s)` for a string argument: optional surrounding whitespace,
an optional ASCII sign, then Unicode decimal digits with optional single
underscores; `none` models the `ValueError` raised on anything else. -/
def pyParseInt (s : String) : Option Int :=
  match ((s.data.dropWhile pyIntSpace).reverse.dropWhile pyIntSpace).reverse with
  | '+' :: c :: rest =>
    (match pyDigitVal c with
     | some d => (digitsCore rest d).map (fun n => (n : Int))
     | none => none)
  | '-' :: c :: rest =>
    (match pyDigitVal c with
     | some d => (digitsCore rest d).map (fun n => -(n : Int))
     | none => none)
  | c :: rest =>
    (match pyDigitVal c with
     | some d => (digitsCore rest d).map (fun n => (n : Int))
     | none => none)
  | [] => none

/-! ## The message summarizer `extract_essential_fields` -/

/-- A Gmail message resource, with the fields the summarizer reads.
`internalDate` is epoch milliseconds as a string (spec glossary); absent
optional fields are `none`. -/
structure Message where
  id : Option String
  threadId : Option String
  internalDate : Option String
  labelIds : Option (List String)
  payload : Option MimePart

/-- The seven-field essential record. -/
structure EssentialEmail where
  messageId : Option String
  threadId : Option String
  messageTimestamp : Option Int
  labelIds : List String
  sender : Option String
  subject : Option String
  messageText : String

/-- Insert-or-update into a Python dict modelled as an association list with
unique keys in insertion order (an existing key keeps its position and takes
the new value; a new key is appended). -/
def dictInsert : List (String × String) → String → String → List (String × String)
  | [], k, v => [(k, v)]
  | (k0, v0) :: d, k, v =>
    if k0 = k then (k0, v) :: d else (k0, v0) :: dictInsert d k v

/-- The dict comprehension
`{h["name"]: h["value"] for h in payload.get("headers", [])}`:
duplicate names resolve to the last occurrence. -/
def dictOfHeaders (hs : List Header) : List (String × String) :=
  hs.foldl (fun d h => dictInsert d h.name h.value) []

/-- Python `dict.get(k)`. -/
def dictGet (d : List (String × String)) (k : String) : Option String :=
  (d.find? (fun kv => kv.1 = k)).map (fun kv => kv.2)

/-- Specification-worded header lookup (for the amended claim about header
extraction): the value of the last header in the list whose name is exactly
`k`, or `none` when there is none. -/
def lastHeaderNamed (hs : List Header) (k : String) : Option String :=
  (hs.reverse.find? (fun h => h.name = k)).map (fun h => h.value)

/-- The `messageTimestamp` expression
`int(message.get("internalDate", 0)) // 1000 if message.get("internalDate") else None`:
the outer `none` models the `ValueError` escaping from `int()`, the inner
option is the field value (`//` is Python floor division). -/
def computeTs : Option String → Option (Option Int)
  | none => some none
  | some s =>
    if s = "" then some none
    else
      match pyParseInt s with
      | none => none
      | some n => some (some (Int.fdiv n 1000))

/-- `src/gmail_agent.py` `extract_essential_fields`.  The result is `none`
exactly when the function raises (which only `int()` on a present, truthy,
unparsable `internalDate` can do); every other missing field degrades to a
`none`/empty default. -/
def extract_essential_fields (message : Message) : Option EssentialEmail :=
  match computeTs message.internalDate with
  | none => none
  | some ts =>
    some
      ⟨message.id, message.threadId, ts, message.labelIds.getD [],
        dictGet (dictOfHeaders (message.payload.getD emptyPart).headers) "From",
        dictGet (dictOfHeaders (message.payload.getD emptyPart).headers) "Subject",
        extract_message_text (message.payload.getD emptyPart)⟩

/-! ## Textless trees (for the walker's empty-result property) -/

/-- This part itself contributes no text: it is not a text part, or its body
data is absent or decodes to the empty string. -/
def selfNoText (p : MimePart) : Bool :=
  if p.mimeType = "text/plain" ∨ p.mimeType = "text/html" then
    match p.data with
    | none => true
    | some d => _decode_part_data (some d) == ""
  else true

mutual

/-- No node of the tree is a `text/plain` or `text/html` part carrying
non-empty decodable body data. -/
def partNoText : MimePart → Bool
  | .mk mt d hs parts => selfNoText (.mk mt d hs parts) && partsNoText parts

/-- `partNoText` for every tree in the list. -/
def partsNoText : List MimePart → Bool
  | [] => true
  | p :: ps => partNoText p && partsNoText ps

end

/-! ## Encoders (reference definitions for the round-trip property) -/

/-- The base64url alphabet character for a 6-bit value. -/
def b64Chr (v : Nat) : Char :=
  if v < 26 then Char.ofNat (65 + v)
  else if v < 52 then Char.ofNat (97 + v - 26)
  else if v < 62 then Char.ofNat (48 + v - 52)
  else if v = 62 then '-'
  else '_'

/-- Unpadded base64url encoding of a byte list, three bytes to four
characters (as `base64.urlsafe_b64encode` with the `=` padding stripped,
Gmail's wire format). -/
def b64EncChars : List Nat → List Char
  | [] => []
  | [b1] => [b64Chr (b1 / 4), b64Chr (b1 % 4 * 16)]
  | [b1, b2] => [b64Chr (b1 / 4), b64Chr (b1 % 4 * 16 + b2 / 16), b64Chr (b2 % 16 * 4)]
  | b1 :: b2 :: b3 :: rest =>
    b64Chr (b1 / 4) :: b64Chr (b1 % 4 * 16 + b2 / 16) :: b64Chr (b2 % 16 * 4 + b3 / 64) ::
      b64Chr (b3 % 64) :: b64EncChars rest

/-- Number of `=` characters that pad `b64EncChars bs` to a quad boundary. -/
def encPad : List Nat → Nat
  | [] => 0
  | [_] => 2
  | [_, _] => 1
  | _ :: _ :: _ :: rest => encPad rest

/-- Unpadded base64url encoding as a string. -/
def b64urlEncode (bs : List Nat) : String := String.mk (b64EncChars bs)

/-- UTF-8 encoding of one Unicode scalar value. -/
def utf8EncodeChar (n : Nat) : List Nat :=
  if n < 128 then [n]
  else if n < 2048 then [192 + n / 64, 128 + n % 64]
  else if n < 65536 then [224 + n / 4096, 128 + n / 64 % 64, 128 + n % 64]
  else [240 + n / 262144, 128 + n / 4096 % 64, 128 + n / 64 % 64, 128 + n % 64]

/-- UTF-8 encoding of a character list. -/
def utf8EncodeChars : List Char → List Nat
  | [] => []
  | c :: cs => utf8EncodeChar c.toNat ++ utf8EncodeChars cs

/-- Python `s.encode('utf-8')`. -/
def utf8Encode (s : String) : List Nat := utf8EncodeChars s.data

/-! ## Basic lemmas about the walker -/

theorem partsSize_append (l1 l2 : List MimePart) :
    partsSize (l1 ++ l2) = partsSize l1 + partsSize l2 := by
  induction l1 with
  | nil => simp [partsSize]
  | cons q qs ih => simp [partsSize, ih]; omega

theorem partSize_eq (p : MimePart) : partSize p = 1 + partsSize p.parts := by
  cases p with
  | mk mt d hs ps => simp [partSize, MimePart.parts]

theorem stepStack_lt (p : MimePart) (rest : List MimePart) :
    partsSize (stepStack p rest) < partsSize (p :: rest) := by
  have h1 : partsSize (p :: rest) = partSize p + partsSize rest := rfl
  rw [stepStack]
  split
  · rw [partsSize_append, h1, partSize_eq]; omega
  · rw [h1, partSize_eq]; omega

theorem extractLoop_nil (acc : List String) : extractLoop [] acc = acc := by
  rw [extractLoop]

theorem extractLoop_cons (p : MimePart) (rest : List MimePart) (acc : List String) :
    extractLoop (p :: rest) acc = extractLoop (stepStack p rest) (collectPart p acc) := by
  rw [extractLoop]

theorem loopFuel_sound (fuel : Nat) :
    ∀ stack acc r, extractLoopFuel fuel stack acc = some r → extractLoop stack acc = r := by
  induction fuel with
  | zero =>
    intro stack acc r h
    cases stack with
    | nil =>
      simp [extractLoopFuel] at h
      rw [extractLoop_nil, h]
    | cons p rest => simp [extractLoopFuel] at h
  | succ n ih =>
    intro stack acc r h
    cases stack with
    | nil =>
      simp [extractLoopFuel] at h
      rw [extractLoop_nil, h]
    | cons p rest =>
      rw [extractLoop_cons]
      exact ih _ _ _ h

theorem loop_eq_fuel (fuel : Nat) :
    ∀ stack acc, partsSize stack ≤ fuel →
      extractLoopFuel fuel stack acc = some (extractLoop stack acc) := by
  induction fuel with
  | zero =>
    intro stack acc h
    cases stack with
    | nil => simp [extractLoopFuel, extractLoop_nil]
    | cons p rest =>
      exfalso
      have h1 : partsSize (p :: rest) = partSize p + partsSize rest := rfl
      rw [partSize_eq] at h1
      omega
  | succ n ih =>
    intro stack acc h
    cases stack with
    | nil => simp [extractLoopFuel, extractLoop_nil]
    | cons p rest =>
      have hlt : partsSize (stepStack p rest) < partsSize (p :: rest) := stepStack_lt p rest
      rw [extractLoop_cons]
      exact ih (stepStack p rest) (collectPart p acc) (by omega)

theorem collectPart_nonText (p : MimePart) (acc : List String)
    (h1 : p.mimeType ≠ "text/plain") (h2 : p.mimeType ≠ "text/html") :
    collectPart p acc = acc := by
  rw [collectPart, if_neg h1, if_neg h2]

theorem stepStack_nonMultipart (p : MimePart) (rest : List MimePart)
    (h : startsWithStr p.mimeType "multipart/" = false) :
    stepStack p rest = rest := by
  rw [stepStack, h]
  simp

theorem stepStack_multipart (p : MimePart) (rest : List MimePart)
    (h : startsWithStr p.mimeType "multipart/" = true) :
    stepStack p rest = p.parts ++ rest := by
  rw [stepStack, h]
  simp

theorem nonspecial_root_empty (p : MimePart)
    (h1 : p.mimeType ≠ "text/plain") (h2 : p.mimeType ≠ "text/html")
    (h3 : startsWithStr p.mimeType "multipart/" = false) :
    extract_message_text p = "" := by
  rw [extract_message_text, extractLoop_cons, collectPart_nonText p [] h1 h2,
    stepStack_nonMultipart p [] h3, extractLoop_nil]
  rfl

theorem partNoText_eq (p : MimePart) :
    partNoText p = (selfNoText p && partsNoText p.parts) := by
  cases p with
  | mk mt d hs ps =>
    rw [partNoText]
    rfl

theorem partsNoText_cons (p : MimePart) (ps : List MimePart) :
    partsNoText (p :: ps) = (partNoText p && partsNoText ps) := by
  rw [partsNoText]

theorem partsNoText_append (l1 l2 : List MimePart) (h1 : partsNoText l1 = true)
    (h2 : partsNoText l2 = true) : partsNoText (l1 ++ l2) = true := by
  induction l1 with
  | nil => simpa using h2
  | cons q qs ih =>
    rw [partsNoText_cons] at h1
    rw [Bool.and_eq_true] at h1
    rw [List.cons_append, partsNoText_cons, h1.1, ih h1.2]
    rfl

theorem collectPart_noText (p : MimePart) (acc : List String) (h : selfNoText p = true) :
    collectPart p acc = acc := by
  rw [collectPart]
  rw [selfNoText] at h
  by_cases h1 : p.mimeType = "text/plain"
  · rw [if_pos h1]
    rw [if_pos (Or.inl h1)] at h
    cases hd : p.data with
    | none => rfl
    | some d =>
      rw [hd] at h
      have hdec : _decode_part_data (some d) = "" := by simpa using h
      simp [hdec]
  · rw [if_neg h1]
    by_cases h2 : p.mimeType = "text/html"
    · rw [if_pos h2]
      rw [if_pos (Or.inr h2)] at h
      cases hd : p.data with
      | none => rfl
      | some d =>
        rw [hd] at h
        have hdec : _decode_part_data (some d) = "" := by simpa using h
        simp [hdec]
    · rw [if_neg h2]

theorem stepStack_noText (p : MimePart) (rest : List MimePart)
    (hp : partNoText p = true) (hr : partsNoText rest = true) :
    partsNoText (stepStack p rest) = true := by
  rw [partNoText_eq, Bool.and_eq_true] at hp
  rw [stepStack]
  split
  · exact partsNoText_append p.parts rest hp.2 hr
  · exact hr

theorem loop_noText (n : Nat) :
    ∀ stack acc, partsSize stack ≤ n → partsNoText stack = true →
      extractLoop stack acc = acc := by
  induction n with
  | zero =>
    intro stack acc h hn
    cases stack with
    | nil => exact extractLoop_nil acc
    | cons p rest =>
      exfalso
      have h1 : partsSize (p :: rest) = partSize p + partsSize rest := rfl
      rw [partSize_eq] at h1
      omega
  | succ m ih =>
    intro stack acc h hn
    cases stack with
    | nil => exact extractLoop_nil acc
    | cons p rest =>
      rw [partsNoText_cons, Bool.and_eq_true] at hn
      have hself : selfNoText p = true := by
        have := hn.1
        rw [partNoText_eq, Bool.and_eq_true] at this
        exact this.1
      have hlt : partsSize (stepStack p rest) < partsSize (p :: rest) := stepStack_lt p rest
      rw [extractLoop_cons, collectPart_noText p acc hself]
      exact ih (stepStack p rest) acc (by omega) (stepStack_noText p rest hn.1 hn.2)

/-! ## Header dictionary lemmas -/

theorem dictGet_cons (k0 v0 : String) (d : List (String × String)) (k : String) :
    dictGet ((k0, v0) :: d) k = if k0 = k then some v0 else dictGet d k := by
  by_cases h : k0 = k
  · simp [dictGet, List.find?, h]
  · simp [dictGet, List.find?, h]

theorem dictGet_insert (d : List (String × String)) (k v k' : String) :
    dictGet (dictInsert d k v) k' = if k' = k then some v else dictGet d k' := by
  induction d with
  | nil =>
    rw [dictInsert, dictGet_cons]
    by_cases h : k' = k
    · simp [h]
    · simp [h, Ne.symm h]
  | cons kv d ih =>
    obtain ⟨k0, v0⟩ := kv
    rw [dictInsert]
    by_cases h0 : k0 = k
    · rw [if_pos h0, dictGet_cons, dictGet_cons]
      subst h0
      by_cases h : k0 = k'
      · simp [h]
      · simp [h, Ne.symm h]
    · rw [if_neg h0, dictGet_cons, dictGet_cons, ih]
      by_cases hk : k0 = k'
      · subst hk
        simp [h0]
      · simp [hk]

theorem dictGet_foldl (hs : List Header) :
    ∀ d k, dictGet (hs.foldl (fun d h => dictInsert d h.name h.value) d) k =
      match hs.reverse.find? (fun h => h.name = k) with
      | some h => some h.value
      | none => dictGet d k := by
  induction hs with
  | nil => intro d k; simp
  | cons h t ih =>
    intro d k
    rw [List.foldl_cons, ih, List.reverse_cons, List.find?_append]
    cases hf : t.reverse.find? (fun hd => hd.name = k) with
    | some hd => simp
    | none =>
      simp only [Option.none_orElse]
      rw [dictGet_insert]
      by_cases hn : h.name = k
      · simp [List.find?, hn]
      · simp [List.find?, hn, Ne.symm hn]

theorem dictOfHeaders_get (hs : List Header) (k : String) :
    dictGet (dictOfHeaders hs) k = lastHeaderNamed hs k := by
  rw [dictOfHeaders, dictGet_foldl, lastHeaderNamed]
  cases hf : hs.reverse.find? (fun h => h.name = k) with
  | some hd => simp
  | none => simp [dictGet]

/-! ## Claim theorems -/

/-- C3: `decodePartData` is total (it is a Lean function into `String`), empty
or `None` input yields `""` immediately, and any input whose padded base64url
decoding fails also yields `""`. -/
theorem c3_decode_total_defaults :
    _decode_part_data none = "" ∧ _decode_part_data (some "") = "" ∧
    ∀ s, pyB64Decode (padB64 s) = none → _decode_part_data (some s) = "" := by
  refine ⟨rfl, rfl, fun s h => ?_⟩
  rw [_decode_part_data]
  by_cases hs : s = ""
  · rw [if_pos hs]
  · rw [if_neg hs, h]

/-- Witness for C3 at two concrete inputs: `"A"`, whose padded form `"A==="`
is a one-character quad and raises `binascii.Error` in Python, and
`"QQQQé"`, whose non-ASCII character makes `urlsafe_b64decode` raise
`ValueError` before any base64 processing. -/
theorem c3_witness :
    (pyB64Decode (padB64 "A") = none ∧ _decode_part_data (some "A") = "") ∧
    (pyB64Decode (padB64 "QQQQé") = none ∧ _decode_part_data (some "QQQQé") = "") :=
  ⟨⟨by decide, c3_decode_total_defaults.2.2 "A" (by decide)⟩,
   ⟨by decide, c3_decode_total_defaults.2.2 "QQQQé" (by decide)⟩⟩

/-- C2: when the padded base64url decoding succeeds, the decoder returns the
strict UTF-8 decoding of the bytes if they are valid UTF-8, and otherwise the
UTF-8-with-replacement decoding of the quoted-printable decoding of those
bytes; the quoted-printable step (`binascii.a2b_qp`) is total, so the final
fall-back tier to the original bytes is never taken, and no tier can raise. -/
theorem c2_decode_tiers (s : String) (bytes : List Nat)
    (h : pyB64Decode (padB64 s) = some bytes) :
    _decode_part_data (some s) =
      match utf8Decode bytes with
      | some cs => String.mk cs
      | none => String.mk (utf8DecodeReplace (a2bQp bytes)) := by
  by_cases hs : s = ""
  · subst hs
    have hpad : pyB64Decode (padB64 "") = some [] := by decide
    rw [hpad] at h
    have hb : ([] : List Nat) = bytes := Option.some.inj h
    rw [← hb]
    rfl
  · rw [_decode_part_data, if_neg hs, h]

/-- Witness for C2 at `"_w"`, which decodes to the single byte `0xFF`:
invalid UTF-8, unchanged by quoted-printable, replaced by `U+FFFD`. -/
theorem c2_witness :
    pyB64Decode (padB64 "_w") = some [255] ∧
    _decode_part_data (some "_w") = String.mk [replChar] := by
  refine ⟨by decide, ?_⟩
  rw [c2_decode_tiers "_w" [255] (by decide)]
  decide

/-- C6: a part whose mime type is neither `text/plain` nor `text/html` nor
`multipart/*` contributes no text and its children are never visited: a tree
rooted at such a part extracts the empty string. -/
theorem c6_nontext_root_skipped (p : MimePart)
    (h1 : p.mimeType ≠ "text/plain") (h2 : p.mimeType ≠ "text/html")
    (h3 : startsWithStr p.mimeType "multipart/" = false) :
    extract_message_text p = "" :=
  nonspecial_root_empty p h1 h2 h3

/-- Witness for C6: an `application/pdf` part with body data and a
`text/plain` child carrying decodable data still yields `""`. -/
theorem c6_witness :
    (MimePart.mk "application/pdf" (some "QQ") []
        [MimePart.mk "text/plain" (some "QQ") [] []]).mimeType ≠ "text/plain" ∧
    (MimePart.mk "application/pdf" (some "QQ") []
        [MimePart.mk "text/plain" (some "QQ") [] []]).mimeType ≠ "text/html" ∧
    startsWithStr (MimePart.mk "application/pdf" (some "QQ") []
        [MimePart.mk "text/plain" (some "QQ") [] []]).mimeType "multipart/" = false ∧
    extract_message_text (MimePart.mk "application/pdf" (some "QQ") []
        [MimePart.mk "text/plain" (some "QQ") [] []]) = "" :=
  ⟨by decide, by decide, by decide,
    c6_nontext_root_skipped _ (by decide) (by decide) (by decide)⟩

/-- C7: a finite MIME tree none of whose nodes is a `text/plain` or
`text/html` part carrying non-empty decodable body data extracts the empty
string. -/
theorem c7_no_text_data_empty (p : MimePart) (h : partNoText p = true) :
    extract_message_text p = "" := by
  have hstack : partsNoText [p] = true := by
    rw [partsNoText_cons, h]
    rfl
  have hl : extractLoop [p] [] = [] :=
    loop_noText (partsSize [p]) [p] [] (Nat.le_refl _) hstack
  rw [extract_message_text, hl]
  decide

/-- Witness for C7: a `multipart/mixed` tree with a dataless `text/plain`
child and an `image/png` attachment carrying data yields `""` (the root's own
body data is ignored for a multipart part). -/
theorem c7_witness :
    partNoText (MimePart.mk "multipart/mixed" (some "QQ") []
        [MimePart.mk "text/plain" none [] [],
         MimePart.mk "image/png" (some "QQ") [] []]) = true ∧
    extract_message_text (MimePart.mk "multipart/mixed" (some "QQ") []
        [MimePart.mk "text/plain" none [] [],
         MimePart.mk "image/png" (some "QQ") [] []]) = "" :=
  ⟨by decide, c7_no_text_data_empty _ (by decide)⟩

/-- C9: the walker terminates on every finite tree: the total size of the
subtrees remaining on the stack strictly decreases at every iteration, and
the fuel-indexed loop run with exactly that total size as fuel completes and
agrees with the total (well-founded) loop. -/
theorem c9_walker_terminates :
    (∀ (p : MimePart) (rest : List MimePart),
      partsSize (stepStack p rest) < partsSize (p :: rest)) ∧
    (∀ (stack : List MimePart) (acc : List String),
      extractLoopFuel (partsSize stack) stack acc = some (extractLoop stack acc)) :=
  ⟨stepStack_lt, fun stack acc => loop_eq_fuel (partsSize stack) stack acc (Nat.le_refl _)⟩

/-- C10: an `internalDate` that is present and truthy but not a valid integer
literal makes the summarizer raise (`none` in the embedding), while the same
message without the field degrades to a `None` timestamp and succeeds. -/
theorem c10_unparsable_internalDate_raises :
    (extract_essential_fields ⟨some "m1", none, some "abc", none, none⟩).isNone = true ∧
    (extract_essential_fields ⟨some "m1", none, none, none, none⟩).isSome = true := by
  constructor
  · decide
  · decide

/-- Counterexample to C4 as stated: a zero `internalDate` (the string `"0"`,
which is truthy in Python) does not yield a null `messageTimestamp` — it
yields timestamp `0`. -/
theorem c4_counterexample :
    (extract_essential_fields ⟨none, none, some "0", none, none⟩).map
        EssentialEmail.messageTimestamp = some (some 0) ∧
    some (some (0 : Int)) ≠ some (none : Option Int) := by
  constructor
  · decide
  · decide

/-- C4 (amended): when the summarizer succeeds, `messageTimestamp` is null
exactly when `internalDate` is absent or the empty string; otherwise it is
the parsed integer floor-divided by 1000 (so `"0"` yields `0`, not null, and
an unparsable value makes the whole call raise instead of degrading). -/
theorem c4_timestamp_amended (m : Message) (e : EssentialEmail)
    (h : extract_essential_fields m = some e) :
    (e.messageTimestamp = none ↔ (m.internalDate = none ∨ m.internalDate = some "")) ∧
    (∀ s n, m.internalDate = some s → pyParseInt s = some n →
      e.messageTimestamp = some (Int.fdiv n 1000)) := by
  rw [extract_essential_fields] at h
  cases hid : m.internalDate with
  | none =>
    rw [hid] at h
    have hts : computeTs none = some none := rfl
    rw [hts] at h
    have he := Option.some.inj h
    constructor
    · rw [← he]
      simp
    · intro s n hs
      exact absurd hs (by simp)
  | some s =>
    rw [hid] at h
    rw [computeTs] at h
    by_cases hs0 : s = ""
    · rw [if_pos hs0] at h
      have he := Option.some.inj h
      constructor
      · rw [← he]
        simp [hs0]
      · intro s' n hs' hn
        have hss : s' = s := (Option.some.inj hs').symm
        have hpe : pyParseInt "" = none := by decide
        rw [hss, hs0, hpe] at hn
        exact absurd hn (by simp)
    · rw [if_neg hs0] at h
      cases hp : pyParseInt s with
      | none =>
        rw [hp] at h
        exact absurd h (by simp)
      | some n0 =>
        rw [hp] at h
        have he := Option.some.inj h
        constructor
        · rw [← he]
          simp [hs0]
        · intro s' n hs' hn
          have hss : s' = s := (Option.some.inj hs').symm
          rw [hss, hp] at hn
          have hnn : n0 = n := Option.some.inj hn
          rw [← he, ← hnn]

/-- Witness for C4 at the claim's own example: `internalDate`
`"1680000000000"` yields timestamp `1680000000`. -/
theorem c4_witness :
    (extract_essential_fields ⟨none, none, some "1680000000000", none, none⟩).map
      EssentialEmail.messageTimestamp = some (some 1680000000) := by
  obtain ⟨e, he⟩ : ∃ e,
      extract_essential_fields ⟨none, none, some "1680000000000", none, none⟩ = some e :=
    ⟨_, rfl⟩
  have ht := (c4_timestamp_amended _ e he).2 "1680000000000" 1680000000000 rfl (by decide)
  rw [he]
  simp only [Option.map_some']
  rw [ht]
  decide

/-- Counterexample to C5 as stated: with two `From` headers the summarizer
reports the value of the last one (`"bob"`), not the first (`"alice"`). -/
theorem c5_counterexample :
    (extract_essential_fields ⟨none, none, none, none,
        some (MimePart.mk "" none [⟨"From", "alice"⟩, ⟨"From", "bob"⟩] [])⟩).map
      EssentialEmail.sender = some (some "bob") ∧
    (([⟨"From", "alice"⟩, ⟨"From", "bob"⟩] : List Header).find?
        (fun h => h.name = "From")).map Header.value = some "alice" ∧
    some (some "bob") ≠ some (some "alice") := by
  refine ⟨?_, ?_, ?_⟩
  · decide
  · decide
  · decide

/-- C5 (amended): `sender` and `subject` are the values of the *last* headers
named exactly `From` and `Subject` (the header dict is built with
last-duplicate-wins mapping semantics), or null when no such header exists. -/
theorem c5_sender_subject_amended (m : Message) (e : EssentialEmail)
    (h : extract_essential_fields m = some e) :
    e.sender = lastHeaderNamed (m.payload.getD emptyPart).headers "From" ∧
    e.subject = lastHeaderNamed (m.payload.getD emptyPart).headers "Subject" := by
  rw [extract_essential_fields] at h
  cases hts : computeTs m.internalDate with
  | none =>
    rw [hts] at h
    exact absurd h (by simp)
  | some ts =>
    rw [hts] at h
    have he := Option.some.inj h
    rw [← he]
    exact ⟨dictOfHeaders_get _ "From", dictOfHeaders_get _ "Subject"⟩

/-- Witness for C5 at the claim's own example: a message whose only header is
`Subject: "No Sender"` yields a null sender and that subject. -/
theorem c5_witness :
    (extract_essential_fields ⟨some "msg1", none, none, none,
        some (MimePart.mk "" none [⟨"Subject", "No Sender"⟩] [])⟩).map
      EssentialEmail.sender = some none ∧
    (extract_essential_fields ⟨some "msg1", none, none, none,
        some (MimePart.mk "" none [⟨"Subject", "No Sender"⟩] [])⟩).map
      EssentialEmail.subject = some (some "No Sender") := by
  obtain ⟨e, he⟩ : ∃ e,
      extract_essential_fields ⟨some "msg1", none, none, none,
        some (MimePart.mk "" none [⟨"Subject", "No Sender"⟩] [])⟩ = some e :=
    ⟨_, rfl⟩
  have hs := c5_sender_subject_amended _ e he
  rw [he]
  constructor
  · simp only [Option.map_some']
    rw [hs.1]
    decide
  · simp only [Option.map_some']
    rw [hs.2]
    decide

theorem collectPart_plain (d : String) (hs : List Header) (ps : List MimePart)
    (acc : List String) (hd : d ≠ "") (hdec : _decode_part_data (some d) ≠ "") :
    collectPart (.mk "text/plain" (some d) hs ps) acc =
      acc ++ [_decode_part_data (some d)] := by
  rw [collectPart]
  simp [MimePart.mimeType, MimePart.data, hd, hdec]

/-- C1: a `multipart/mixed` root with two `text/plain` children whose data
decode to non-empty texts `A` (first child) and `B` (second child) extracts
the trimmed concatenation of `B`, a newline, and `A`: the loop collects in
pop order (`A` then `B`), the collected list is reversed, joined with
newlines, and trimmed. -/
theorem c1_multipart_two_plain_reversed (d1 d2 : String) (rd : Option String)
    (rh hh1 hh2 : List Header) (ps1 ps2 : List MimePart)
    (hA : _decode_part_data (some d1) ≠ "") (hB : _decode_part_data (some d2) ≠ "") :
    extract_message_text (.mk "multipart/mixed" rd rh
        [.mk "text/plain" (some d1) hh1 ps1, .mk "text/plain" (some d2) hh2 ps2]) =
      pyStrip (_decode_part_data (some d2) ++ "\n" ++ _decode_part_data (some d1)) := by
  have hd1 : d1 ≠ "" := fun hh => hA (by rw [hh]; rfl)
  have hd2 : d2 ≠ "" := fun hh => hB (by rw [hh]; rfl)
  rw [extract_message_text, extractLoop_cons,
    collectPart_nonText _ _ (by simp only [MimePart.mimeType]; decide)
      (by simp only [MimePart.mimeType]; decide),
    stepStack_multipart _ _ (by simp only [MimePart.mimeType]; decide)]
  simp only [MimePart.parts, List.append_nil]
  rw [extractLoop_cons, collectPart_plain d1 hh1 ps1 [] hd1 hA,
    stepStack_nonMultipart _ _ (by simp only [MimePart.mimeType]; decide)]
  simp only [List.nil_append]
  rw [extractLoop_cons, collectPart_plain d2 hh2 ps2 _ hd2 hB,
    stepStack_nonMultipart _ _ (by simp only [MimePart.mimeType]; decide), extractLoop_nil]
  simp only [List.reverse_cons, List.reverse_nil, List.nil_append, List.cons_append,
    List.singleton_append]
  simp only [pyJoin]

/-- Witness for C1: `"QQ"` decodes to `"A"` and `"Qg"` to `"B"`; the
multipart/mixed message with those two `text/plain` children yields
`"B\nA"`. -/
theorem c1_witness :
    _decode_part_data (some "QQ") ≠ "" ∧ _decode_part_data (some "Qg") ≠ "" ∧
    extract_message_text (.mk "multipart/mixed" none []
        [.mk "text/plain" (some "QQ") [] [], .mk "text/plain" (some "Qg") [] []]) = "B\nA" := by
  refine ⟨by decide, by decide, ?_⟩
  rw [c1_multipart_two_plain_reversed "QQ" "Qg" none [] [] [] [] [] (by decide) (by decide)]
  decide

/-! ## Round-trip: base64url -/

theorem b64Chr_val : ∀ v, v < 64 → b64Val (b64Chr v) = some v ∧ b64Chr v ≠ '=' := by decide

theorem a2b_step0 (c : Char) (v : Nat) (hv : b64Val c = some v) (hne : c ≠ '=')
    (cs : List Char) (lc pads : Nat) (out : List Nat) :
    a2bBase64 (c :: cs) 0 lc pads out = a2bBase64 cs 1 v 0 out := by
  rw [a2bBase64, if_neg hne, hv]
  rfl

theorem a2b_step1 (c : Char) (v : Nat) (hv : b64Val c = some v) (hne : c ≠ '=')
    (cs : List Char) (lc pads : Nat) (out : List Nat) :
    a2bBase64 (c :: cs) 1 lc pads out =
      a2bBase64 cs 2 (v % 16) 0 ((lc * 4 + v / 16) :: out) := by
  rw [a2bBase64, if_neg hne, hv]
  rfl

theorem a2b_step2 (c : Char) (v : Nat) (hv : b64Val c = some v) (hne : c ≠ '=')
    (cs : List Char) (lc pads : Nat) (out : List Nat) :
    a2bBase64 (c :: cs) 2 lc pads out =
      a2bBase64 cs 3 (v % 4) 0 ((lc * 16 + v / 4) :: out) := by
  rw [a2bBase64, if_neg hne, hv]
  rfl

theorem a2b_step3 (c : Char) (v : Nat) (hv : b64Val c = some v) (hne : c ≠ '=')
    (cs : List Char) (lc pads : Nat) (out : List Nat) :
    a2bBase64 (c :: cs) 3 lc pads out = a2bBase64 cs 0 0 0 ((lc * 64 + v) :: out) := by
  rw [a2bBase64, if_neg hne, hv]
  rfl

theorem a2b_pad2_first (cs : List Char) (lc : Nat) (out : List Nat) :
    a2bBase64 ('=' :: cs) 2 lc 0 out = a2bBase64 cs 2 lc 1 out := rfl

theorem a2b_pad2_second (cs : List Char) (lc : Nat) (out : List Nat) :
    a2bBase64 ('=' :: cs) 2 lc 1 out = some out.reverse := rfl

theorem a2b_pad3 (cs : List Char) (lc pads : Nat) (out : List Nat) :
    a2bBase64 ('=' :: cs) 3 lc pads out = some out.reverse := by
  rw [a2bBase64, if_pos rfl, if_pos (by omega : 2 ≤ 3), if_pos (by omega : 4 ≤ 3 + (pads + 1))]

theorem b64_encode_decode : ∀ (bs : List Nat), (∀ b ∈ bs, b < 256) →
    ∀ (pads : Nat) (out : List Nat),
      a2bBase64 (b64EncChars bs ++ List.replicate (encPad bs) '=') 0 0 pads out =
        some (out.reverse ++ bs)
  | [], _, pads, out => by
    show a2bBase64 [] 0 0 pads out = some (out.reverse ++ [])
    rw [a2bBase64]
    simp
  | [b1], h, pads, out => by
    have hb1 : b1 < 256 := h b1 (by simp)
    have h1 : b1 / 4 < 64 := by omega
    have h2 : b1 % 4 * 16 < 64 := by omega
    show a2bBase64 (b64Chr (b1 / 4) :: b64Chr (b1 % 4 * 16) :: '=' :: '=' :: []) 0 0 pads out =
      some (out.reverse ++ [b1])
    rw [a2b_step0 _ _ (b64Chr_val _ h1).1 (b64Chr_val _ h1).2,
      a2b_step1 _ _ (b64Chr_val _ h2).1 (b64Chr_val _ h2).2,
      a2b_pad2_first, a2b_pad2_second]
    have hx : b1 / 4 * 4 + b1 % 4 * 16 / 16 = b1 := by omega
    rw [hx, List.reverse_cons]
  | [b1, b2], h, pads, out => by
    have hb1 : b1 < 256 := h b1 (by simp)
    have hb2 : b2 < 256 := h b2 (by simp)
    have h1 : b1 / 4 < 64 := by omega
    have h2 : b1 % 4 * 16 + b2 / 16 < 64 := by omega
    have h3 : b2 % 16 * 4 < 64 := by omega
    show a2bBase64 (b64Chr (b1 / 4) :: b64Chr (b1 % 4 * 16 + b2 / 16) ::
        b64Chr (b2 % 16 * 4) :: '=' :: []) 0 0 pads out = some (out.reverse ++ [b1, b2])
    rw [a2b_step0 _ _ (b64Chr_val _ h1).1 (b64Chr_val _ h1).2,
      a2b_step1 _ _ (b64Chr_val _ h2).1 (b64Chr_val _ h2).2,
      a2b_step2 _ _ (b64Chr_val _ h3).1 (b64Chr_val _ h3).2,
      a2b_pad3]
    have hx1 : b1 / 4 * 4 + (b1 % 4 * 16 + b2 / 16) / 16 = b1 := by omega
    have hx2 : (b1 % 4 * 16 + b2 / 16) % 16 * 16 + b2 % 16 * 4 / 4 = b2 := by omega
    rw [hx1, hx2, List.reverse_cons, List.reverse_cons, List.append_assoc]
    rfl
  | b1 :: b2 :: b3 :: rest, h, pads, out => by
    have hb1 : b1 < 256 := h b1 (by simp)
    have hb2 : b2 < 256 := h b2 (by simp)
    have hb3 : b3 < 256 := h b3 (by simp)
    have hrest : ∀ b ∈ rest, b < 256 := fun b hb => h b (by simp [hb])
    have h1 : b1 / 4 < 64 := by omega
    have h2 : b1 % 4 * 16 + b2 / 16 < 64 := by omega
    have h3 : b2 % 16 * 4 + b3 / 64 < 64 := by omega
    have h4 : b3 % 64 < 64 := by omega
    show a2bBase64 (b64Chr (b1 / 4) :: b64Chr (b1 % 4 * 16 + b2 / 16) ::
        b64Chr (b2 % 16 * 4 + b3 / 64) :: b64Chr (b3 % 64) ::
        (b64EncChars rest ++ List.replicate (encPad rest) '=')) 0 0 pads out =
      some (out.reverse ++ (b1 :: b2 :: b3 :: rest))
    rw [a2b_step0 _ _ (b64Chr_val _ h1).1 (b64Chr_val _ h1).2,
      a2b_step1 _ _ (b64Chr_val _ h2).1 (b64Chr_val _ h2).2,
      a2b_step2 _ _ (b64Chr_val _ h3).1 (b64Chr_val _ h3).2,
      a2b_step3 _ _ (b64Chr_val _ h4).1 (b64Chr_val _ h4).2]
    have hx1 : b1 / 4 * 4 + (b1 % 4 * 16 + b2 / 16) / 16 = b1 := by omega
    have hx2 : (b1 % 4 * 16 + b2 / 16) % 16 * 16 + (b2 % 16 * 4 + b3 / 64) / 4 = b2 := by omega
    have hx3 : (b2 % 16 * 4 + b3 / 64) % 4 * 64 + b3 % 64 = b3 := by omega
    rw [hx1, hx2, hx3, b64_encode_decode rest hrest 0 (b3 :: b2 :: b1 :: out)]
    simp

theorem encPad_eq : ∀ bs : List Nat, (4 - (b64EncChars bs).length % 4) % 4 = encPad bs
  | [] => by rfl
  | [_] => by rfl
  | [_, _] => by rfl
  | b1 :: b2 :: b3 :: rest => by
    have ih := encPad_eq rest
    have hlen : (b64EncChars (b1 :: b2 :: b3 :: rest)).length =
        4 + (b64EncChars rest).length := by
      rw [b64EncChars]
      simp [List.length_cons]
      omega
    show (4 - (b64EncChars (b1 :: b2 :: b3 :: rest)).length % 4) % 4 = encPad rest
    rw [hlen, ← ih]
    omega


/-! ## Round-trip: UTF-8 -/

theorem char_toNat_lt (c : Char) : c.toNat < 1114112 := by
  have hv : c.toNat < 55296 ∨ (57343 < c.toNat ∧ c.toNat < 1114112) := c.valid
  omega

theorem utf8EncodeChar_lt (n : Nat) (hn : n < 1114112) : ∀ b ∈ utf8EncodeChar n, b < 256 := by
  rw [utf8EncodeChar]
  by_cases h1 : n < 128
  · rw [if_pos h1]
    intro b hb
    simp at hb
    omega
  · rw [if_neg h1]
    by_cases h2 : n < 2048
    · rw [if_pos h2]
      intro b hb
      simp at hb
      rcases hb with h | h <;> omega
    · rw [if_neg h2]
      by_cases h3 : n < 65536
      · rw [if_pos h3]
        intro b hb
        simp at hb
        rcases hb with h | h | h <;> omega
      · rw [if_neg h3]
        intro b hb
        simp at hb
        rcases hb with h | h | h | h <;> omega

theorem utf8EncodeChars_lt : ∀ l : List Char, ∀ b ∈ utf8EncodeChars l, b < 256
  | [] => by simp [utf8EncodeChars]
  | c :: cs => by
    intro b hb
    rw [utf8EncodeChars, List.mem_append] at hb
    rcases hb with h | h
    · exact utf8EncodeChar_lt c.toNat (char_toNat_lt c) b h
    · exact utf8EncodeChars_lt cs b h

theorem u8Aux_encodeChar (c : Char) (rest : List Nat) (acc : List Char) :
    u8Aux (utf8EncodeChar c.toNat ++ rest) 0 0 0 acc = u8Aux rest 0 0 0 (c :: acc) := by
  have hv : c.toNat < 55296 ∨ (57343 < c.toNat ∧ c.toNat < 1114112) := c.valid
  have hofn : Char.ofNat c.toNat = c := Char.ofNat_toNat c
  by_cases h1 : c.toNat < 128
  · have he : utf8EncodeChar c.toNat = [c.toNat] := by
      rw [utf8EncodeChar, if_pos h1]
    rw [he]
    show u8Aux (c.toNat :: rest) 0 0 0 acc = _
    rw [u8Aux, if_pos h1, hofn]
  · by_cases h2 : c.toNat < 2048
    · have he : utf8EncodeChar c.toNat = [192 + c.toNat / 64, 128 + c.toNat % 64] := by
        rw [utf8EncodeChar, if_neg h1, if_pos h2]
      rw [he]
      show u8Aux ((192 + c.toNat / 64) :: (128 + c.toNat % 64) :: rest) 0 0 0 acc = _
      rw [u8Aux, if_neg (by omega), if_neg (by omega), if_pos (by omega)]
      rw [u8Aux]
      have hcont : isCont (128 + c.toNat % 64) = true := by
        simp only [isCont, Bool.and_eq_true, decide_eq_true_eq]
        omega
      rw [if_pos hcont, if_pos rfl,
        show (192 + c.toNat / 64 - 192) * 64 + (128 + c.toNat % 64 - 128) = c.toNat from by
          omega]
      have hc : (decide (128 ≤ c.toNat) &&
          (decide (c.toNat < 55296) || decide (57344 ≤ c.toNat)) &&
          decide (c.toNat < 1114112)) = true := by
        simp only [Bool.and_eq_true, Bool.or_eq_true, decide_eq_true_eq]
        omega
      rw [if_pos hc, hofn]
    · by_cases h3 : c.toNat < 65536
      · have he : utf8EncodeChar c.toNat =
            [224 + c.toNat / 4096, 128 + c.toNat / 64 % 64, 128 + c.toNat % 64] := by
          rw [utf8EncodeChar, if_neg h1, if_neg h2, if_pos h3]
        rw [he]
        show u8Aux ((224 + c.toNat / 4096) :: (128 + c.toNat / 64 % 64) ::
          (128 + c.toNat % 64) :: rest) 0 0 0 acc = _
        rw [u8Aux, if_neg (by omega), if_neg (by omega), if_neg (by omega), if_pos (by omega)]
        have hcont1 : isCont (128 + c.toNat / 64 % 64) = true := by
          simp only [isCont, Bool.and_eq_true, decide_eq_true_eq]
          omega
        have hcont2 : isCont (128 + c.toNat % 64) = true := by
          simp only [isCont, Bool.and_eq_true, decide_eq_true_eq]
          omega
        rw [u8Aux, if_pos hcont1, if_neg (by omega)]
        rw [u8Aux, if_pos hcont2, if_pos rfl,
          show ((224 + c.toNat / 4096 - 224) * 64 + (128 + c.toNat / 64 % 64 - 128)) * 64 +
              (128 + c.toNat % 64 - 128) = c.toNat from by omega]
        have hc : (decide (2048 ≤ c.toNat) &&
            (decide (c.toNat < 55296) || decide (57344 ≤ c.toNat)) &&
            decide (c.toNat < 1114112)) = true := by
          simp only [Bool.and_eq_true, Bool.or_eq_true, decide_eq_true_eq]
          omega
        rw [if_pos hc, hofn]
      · have h4 : c.toNat < 1114112 := char_toNat_lt c
        have he : utf8EncodeChar c.toNat =
            [240 + c.toNat / 262144, 128 + c.toNat / 4096 % 64,
             128 + c.toNat / 64 % 64, 128 + c.toNat % 64] := by
          rw [utf8EncodeChar, if_neg h1, if_neg h2, if_neg h3]
        rw [he]
        show u8Aux ((240 + c.toNat / 262144) :: (128 + c.toNat / 4096 % 64) ::
          (128 + c.toNat / 64 % 64) :: (128 + c.toNat % 64) :: rest) 0 0 0 acc = _
        rw [u8Aux, if_neg (by omega), if_neg (by omega), if_neg (by omega), if_neg (by omega),
          if_pos (by omega)]
        have hcont1 : isCont (128 + c.toNat / 4096 % 64) = true := by
          simp only [isCont, Bool.and_eq_true, decide_eq_true_eq]
          omega
        have hcont2 : isCont (128 + c.toNat / 64 % 64) = true := by
          simp only [isCont, Bool.and_eq_true, decide_eq_true_eq]
          omega
        have hcont3 : isCont (128 + c.toNat % 64) = true := by
          simp only [isCont, Bool.and_eq_true, decide_eq_true_eq]
          omega
        rw [u8Aux, if_pos hcont1, if_neg (by omega)]
        rw [u8Aux, if_pos hcont2, if_neg (by omega)]
        rw [u8Aux, if_pos hcont3, if_pos rfl,
          show (((240 + c.toNat / 262144 - 240) * 64 + (128 + c.toNat / 4096 % 64 - 128)) * 64 +
              (128 + c.toNat / 64 % 64 - 128)) * 64 + (128 + c.toNat % 64 - 128) = c.toNat
            from by omega]
        have hc : (decide (65536 ≤ c.toNat) &&
            (decide (c.toNat < 55296) || decide (57344 ≤ c.toNat)) &&
            decide (c.toNat < 1114112)) = true := by
          simp only [Bool.and_eq_true, Bool.or_eq_true, decide_eq_true_eq]
          omega
        rw [if_pos hc, hofn]

theorem u8Aux_encodeChars : ∀ (l : List Char) (rest : List Nat) (acc : List Char),
    u8Aux (utf8EncodeChars l ++ rest) 0 0 0 acc = u8Aux rest 0 0 0 (l.reverse ++ acc)
  | [], rest, acc => by simp [utf8EncodeChars]
  | c :: cs, rest, acc => by
    rw [utf8EncodeChars, List.append_assoc, u8Aux_encodeChar,
      u8Aux_encodeChars cs rest (c :: acc)]
    simp

theorem utf8Decode_encodeChars (l : List Char) : utf8Decode (utf8EncodeChars l) = some l := by
  have h := u8Aux_encodeChars l [] []
  rw [List.append_nil] at h
  rw [utf8Decode, h, u8Aux]
  simp

theorem utf8EncodeChar_ne_nil (n : Nat) : utf8EncodeChar n ≠ [] := by
  rw [utf8EncodeChar]
  by_cases h1 : n < 128
  · rw [if_pos h1]
    simp
  · rw [if_neg h1]
    by_cases h2 : n < 2048
    · rw [if_pos h2]
      simp
    · rw [if_neg h2]
      by_cases h3 : n < 65536
      · rw [if_pos h3]
        simp
      · rw [if_neg h3]
        simp

theorem utf8Encode_ne_nil (s : String) (hs : s ≠ "") : utf8Encode s ≠ [] := by
  cases hd : s.data with
  | nil =>
    exfalso
    apply hs
    apply String.ext
    rw [hd]
  | cons c cs =>
    rw [utf8Encode, hd, utf8EncodeChars]
    intro hcon
    exact utf8EncodeChar_ne_nil c.toNat (List.append_eq_nil.mp hcon).1

theorem b64EncChars_ne_nil : ∀ bs : List Nat, bs ≠ [] → b64EncChars bs ≠ []
  | [], h => absurd rfl h
  | [b1], _ => by
    rw [b64EncChars]
    simp
  | [b1, b2], _ => by
    rw [b64EncChars]
    simp
  | b1 :: b2 :: b3 :: rest, _ => by
    rw [b64EncChars]
    simp

theorem b64Chr_ascii : ∀ v, v < 64 → (b64Chr v).toNat < 128 := by decide

theorem b64EncChars_ascii : ∀ bs : List Nat, (∀ b ∈ bs, b < 256) →
    ∀ c ∈ b64EncChars bs, c.toNat < 128
  | [], _, c, hc => by simp [b64EncChars] at hc
  | [b1], h, c, hc => by
    have hb1 : b1 < 256 := h b1 (by simp)
    rw [b64EncChars] at hc
    simp at hc
    rcases hc with h1 | h1 <;> (subst h1; exact b64Chr_ascii _ (by omega))
  | [b1, b2], h, c, hc => by
    have hb1 : b1 < 256 := h b1 (by simp)
    have hb2 : b2 < 256 := h b2 (by simp)
    rw [b64EncChars] at hc
    simp at hc
    rcases hc with h1 | h1 | h1 <;> (subst h1; exact b64Chr_ascii _ (by omega))
  | b1 :: b2 :: b3 :: rest, h, c, hc => by
    have hb1 : b1 < 256 := h b1 (by simp)
    have hb2 : b2 < 256 := h b2 (by simp)
    have hb3 : b3 < 256 := h b3 (by simp)
    have hrest : ∀ b ∈ rest, b < 256 := fun b hb => h b (by simp [hb])
    rw [b64EncChars] at hc
    simp at hc
    rcases hc with h1 | h1 | h1 | h1 | h1
    · subst h1
      exact b64Chr_ascii _ (by omega)
    · subst h1
      exact b64Chr_ascii _ (by omega)
    · subst h1
      exact b64Chr_ascii _ (by omega)
    · subst h1
      exact b64Chr_ascii _ (by omega)
    · exact b64EncChars_ascii rest hrest c h1

/-- C8: round-trip — decoding the (unpadded) base64url encoding of the UTF-8
bytes of any Unicode string returns exactly that string. -/
theorem c8_round_trip (s : String) :
    _decode_part_data (some (b64urlEncode (utf8Encode s))) = s := by
  by_cases hs : s = ""
  · subst hs
    decide
  · have hbytes : ∀ b ∈ utf8Encode s, b < 256 := utf8EncodeChars_lt s.data
    have hnil : utf8Encode s ≠ [] := utf8Encode_ne_nil s hs
    have hlnil : b64EncChars (utf8Encode s) ≠ [] := b64EncChars_ne_nil _ hnil
    have hne : b64urlEncode (utf8Encode s) ≠ "" := by
      rw [b64urlEncode]
      intro hcon
      exact hlnil (congrArg String.data hcon)
    have hdata : (padB64 (b64urlEncode (utf8Encode s))).data =
        b64EncChars (utf8Encode s) ++ List.replicate (encPad (utf8Encode s)) '=' := by
      rw [padB64, String.data_append, b64urlEncode]
      show b64EncChars (utf8Encode s) ++
          List.replicate ((4 - (String.mk (b64EncChars (utf8Encode s))).length % 4) % 4) '=' = _
      rw [show (String.mk (b64EncChars (utf8Encode s))).length =
        (b64EncChars (utf8Encode s)).length from rfl]
      rw [encPad_eq]
    have hascii : (padB64 (b64urlEncode (utf8Encode s))).data.all
        (fun c => decide (c.toNat < 128)) = true := by
      rw [hdata, List.all_append, Bool.and_eq_true]
      constructor
      · rw [List.all_eq_true]
        intro c hc
        simpa using b64EncChars_ascii (utf8Encode s) hbytes c hc
      · rw [List.all_eq_true]
        intro c hc
        rw [List.eq_of_mem_replicate hc]
        decide
    have hdec : pyB64Decode (padB64 (b64urlEncode (utf8Encode s))) = some (utf8Encode s) := by
      rw [pyB64Decode, if_pos hascii, hdata, b64_encode_decode (utf8Encode s) hbytes 0 []]
      simp
    rw [_decode_part_data, if_neg hne, hdec]
    show (match utf8Decode (utf8Encode s) with
      | some cs => String.mk cs
      | none => String.mk (utf8DecodeReplace (a2bQp (utf8Encode s)))) = s
    rw [show utf8Encode s = utf8EncodeChars s.data from rfl, utf8Decode_encodeChars]
